import Mathlib

set_option maxHeartbeats 1000000

/-!
Shallow embedding of the subtitle-handling core of src/index.js:
the script aligner (correctSubtitles), the SRT timing parser
(timeStringToSeconds), the ASS time formatter (secondsToAssTime) and the
SRT-to-ASS caption compiler (processBlock / convertSrtToAss).
Durations are modeled as rationals; line and text values as strings /
character lists.
-/

/-- Whitespace characters removed by the trim operation. -/
def isWsChar (c : Char) : Bool :=
  c = ' ' || c = '\t' || c = '\n' || c = '\r'

/-- Trim on a character list: drop whitespace at both ends (models
String.prototype.trim). -/
def trimL (cs : List Char) : List Char :=
  ((cs.dropWhile isWsChar).reverse.dropWhile isWsChar).reverse

/-- Trim of a string. -/
def trimS (s : String) : String := ⟨trimL s.data⟩

/-- Split on every single space character, keeping empty pieces (models
String.prototype.split applied to a one-space separator). -/
def splitSpace : List Char → List (List Char)
  | [] => [[]]
  | c :: rest =>
    if c = ' ' then [] :: splitSpace rest
    else
      match splitSpace rest with
      | [] => [[c]]
      | w :: ws => (c :: w) :: ws

/-- Join word lists with single spaces (models Array.prototype.join with a
one-space separator). -/
def joinSpace : List (List Char) → List Char
  | [] => []
  | [w] => w
  | w :: ws => w ++ ' ' :: joinSpace ws

/-- Whether the three-character arrow separator of timing lines occurs in the
character list (models String.prototype.includes). -/
def hasArrow : List Char → Bool
  | [] => false
  | c :: rest => (c = '-' && rest.take 2 = ['-', '>']) || hasArrow rest

/-- Arrow test on strings. -/
def hasArrowS (s : String) : Bool := hasArrow s.data

/-- Split a character list on occurrences of the arrow separator (models
String.prototype.split applied to the arrow token). -/
def arrowSplit : List Char → List (List Char)
  | [] => [[]]
  | '-' :: '-' :: '>' :: rest => [] :: arrowSplit rest
  | c :: rest =>
    match arrowSplit rest with
    | [] => [[c]]
    | p :: ps => (c :: p) :: ps

/-- A line consisting only of digits, at least one (models the anchored
all-digit pattern test of the sources). -/
def isIndexLine (s : String) : Bool := !s.data.isEmpty && s.data.all Char.isDigit

/-- A line whose trimmed text is empty. -/
def isBlankLine (s : String) : Bool := (trimL s.data).isEmpty

/-- Pad a string on the left with the given character up to the given length
(models String.prototype.padStart). -/
def padStart (s : String) (n : Nat) (c : Char) : String :=
  ⟨List.replicate (n - s.length) c ++ s.data⟩

/-- Split a character list on newline characters (models
String.prototype.split applied to the newline separator). -/
def splitNl : List Char → List (List Char)
  | [] => [[]]
  | c :: rest =>
    if c = '\n' then [] :: splitNl rest
    else
      match splitNl rest with
      | [] => [[c]]
      | w :: ws => (c :: w) :: ws

/-- The input document split into lines (split on the newline character). -/
def linesOf (s : String) : List String := (splitNl s.data).map (fun cs => ⟨cs⟩)

/-- Split a character list on occurrences of the two-character period-space
delimiter (models String.prototype.split applied to that delimiter). -/
def sentSplit : List Char → List (List Char)
  | [] => [[]]
  | '.' :: ' ' :: rest => [] :: sentSplit rest
  | c :: rest =>
    match sentSplit rest with
    | [] => [[c]]
    | p :: ps => (c :: p) :: ps

/-- The reference script split into sentences on the period-space delimiter,
as in correctSubtitles. -/
def sentencesOf (script : String) : List String :=
  (sentSplit script.data).map (fun cs => ⟨cs⟩)

/-- Value of a digit string (models parseInt base 10 on an all-digit string). -/
def digitsVal (ds : List Char) : Nat :=
  ds.foldl (fun a c => 10 * a + (c.toNat - '0'.toNat)) 0

/-- Attempt to match the timing pattern digits, colon, digits, colon, digits,
comma, digits at the head of the character list, returning the four numbers. -/
def matchAt (cs : List Char) : Option (Nat × Nat × Nat × Nat) :=
  let d1 := cs.takeWhile Char.isDigit
  let r1 := cs.dropWhile Char.isDigit
  if d1.isEmpty then none else
  match r1 with
  | ':' :: r2 =>
    let d2 := r2.takeWhile Char.isDigit
    let r3 := r2.dropWhile Char.isDigit
    if d2.isEmpty then none else
    match r3 with
    | ':' :: r4 =>
      let d3 := r4.takeWhile Char.isDigit
      let r5 := r4.dropWhile Char.isDigit
      if d3.isEmpty then none else
      match r5 with
      | ',' :: r6 =>
        let d4 := r6.takeWhile Char.isDigit
        if d4.isEmpty then none
        else some (digitsVal d1, digitsVal d2, digitsVal d3, digitsVal d4)
      | _ => none
    | _ => none
  | _ => none

/-- Search for the leftmost match of the timing pattern (models an unanchored
regular-expression search). -/
def scanTime : List Char → Option (Nat × Nat × Nat × Nat)
  | [] => none
  | cs@(_ :: rest) =>
    match matchAt cs with
    | some r => some r
    | none => scanTime rest

/-- Numeric value of the four timing fields, in fractional seconds. -/
def srtTimeValue (h m s ms : Nat) : ℚ :=
  h * 3600 + m * 60 + s + (ms : ℚ) / 1000

/-- timeStringToSeconds from src/index.js: leftmost match of the timing
pattern converted to fractional seconds; zero when nothing matches. -/
def timeStringToSeconds (s : String) : ℚ :=
  match scanTime s.data with
  | none => 0
  | some (h, m, sec, ms) => srtTimeValue h m sec ms

/-- Remainder as computed by the numeric remainder operator on nonnegative
operands. -/
def jsMod (a b : ℚ) : ℚ := a - b * (⌊a / b⌋ : ℚ)

/-- Hours field of the formatter. -/
def assHours (q : ℚ) : Nat := (⌊q / 3600⌋).toNat

/-- Minutes field of the formatter. -/
def assMinutes (q : ℚ) : Nat := (⌊jsMod q 3600 / 60⌋).toNat

/-- Seconds field of the formatter in centiseconds, rounded to the nearest
(models toFixed applied with two decimals). -/
def assCentis (q : ℚ) : Nat := (round (jsMod q 60 * 100)).toNat

/-- secondsToAssTime from src/index.js: hours unpadded, minutes padded to two
digits, seconds with two decimals padded to at least five characters. -/
def secondsToAssTime (q : ℚ) : String :=
  Nat.repr (assHours q) ++ ":" ++ padStart (Nat.repr (assMinutes q)) 2 '0' ++ ":" ++
    padStart (Nat.repr (assCentis q / 100) ++ "." ++
      padStart (Nat.repr (assCentis q % 100)) 2 '0') 5 '0'

/-- Numeric value denoted by the formatted time. -/
def assTimeValue (q : ℚ) : ℚ :=
  3600 * (assHours q : ℚ) + 60 * (assMinutes q : ℚ) + (assCentis q : ℚ) / 100

/-- The content-line test of correctSubtitles: trimmed text nonempty and not
an all-digit index line (tested after the timing-line test). -/
def contentCond (l : String) : Bool := !isBlankLine l && !isIndexLine l

/-- A line the aligner rewrites: not a timing line, nonblank, not an index
line. -/
def isContentLine (l : String) : Bool := !hasArrowS l && contentCond l

/-- The line-rewriting loop of correctSubtitles from src/index.js: timing
lines are kept, content lines consume the next script sentence while one
remains, all other lines are kept. -/
def alignLines : List String → List String → List String
  | _, [] => []
  | ss, l :: rest =>
    if hasArrowS l then l :: alignLines ss rest
    else if contentCond l then
      match ss with
      | s :: ss2 => trimS s :: alignLines ss2 rest
      | [] => alignLines [] rest
    else l :: alignLines ss rest

/-- Number of content lines. -/
def contentCount (lines : List String) : Nat :=
  (lines.filter (fun l => isContentLine l)).length

/-- Number of content lines strictly before position k. -/
def contentIdx (lines : List String) (k : Nat) : Nat := contentCount (lines.take k)

/-- correctSubtitles from src/index.js as a text transform: sentences of the
script replace content lines of the transcript, one newline appended per
emitted line. -/
def correctSubtitles (script srt : String) : String :=
  String.join ((alignLines (sentencesOf script) (linesOf srt)).map (fun l => l ++ "\n"))

/-- One Dialogue event of the output: clamped start and end times and chunk
text. -/
structure DialogueEvent where
  startT : ℚ
  endT : ℚ
  text : String
deriving DecidableEq, Repr, Inhabited

/-- One emitted chunk event: tentative proportional times, start clamped
against the previous emitted end, end clamped against the window end. -/
def chunkEv (s e tpw : ℚ) (n i : Nat) (lastEnd : ℚ) (chunk : List (List Char)) :
    DialogueEvent :=
  let rawS := s + (i : ℚ) * tpw
  let rawE := s + ((min (i + 4) n : Nat) : ℚ) * tpw
  let cs := if rawS < lastEnd then lastEnd else rawS
  let ce := if e < rawE then e else rawE
  ⟨cs, ce, ⟨joinSpace chunk⟩⟩

/-- The chunk-emission loop of processBlock from src/index.js: one event per
group of four consecutive words (the final group may be shorter), the loop
counter advancing by four. -/
def chunkLoop (s e tpw : ℚ) (n : Nat) : List (List Char) → Nat → ℚ → List DialogueEvent
  | [], _, _ => []
  | a :: b :: c :: d :: rest, i, lastEnd =>
    let ev := chunkEv s e tpw n i lastEnd [a, b, c, d]
    ev :: chunkLoop s e tpw n rest (i + 4) ev.endT
  | rem, i, lastEnd => [chunkEv s e tpw n i lastEnd rem]

/-- The words of the accumulated buffer: trimmed, then split on single
spaces. -/
def wordsOf (buf : List Char) : List (List Char) := splitSpace (trimL buf)

/-- The events one flush emits when the running last emitted end starts at
zero. -/
def flushEvents (s e : ℚ) (buf : List Char) : List DialogueEvent :=
  if buf.isEmpty then []
  else
    let ws := wordsOf buf
    chunkLoop s e ((e - s) / (ws.length : ℚ)) ws.length ws 0 0

/-- Mutable state of convertSrtToAss: current window, accumulated text
buffer, last emitted end time and emitted events. -/
structure SubState where
  startT : ℚ
  endT : ℚ
  buffer : List Char
  lastEnd : ℚ
  events : List DialogueEvent
deriving DecidableEq, Repr

/-- Initial compiler state. -/
def initState : SubState := ⟨0, 0, [], 0, []⟩

/-- processBlock from src/index.js: flush the accumulated buffer into chunk
events, then clear the buffer and reset the last emitted end. -/
def processBlock (st : SubState) : SubState :=
  if st.buffer.isEmpty then st
  else
    let ws := wordsOf st.buffer
    { st with
      events := st.events ++
        chunkLoop st.startT st.endT ((st.endT - st.startT) / (ws.length : ℚ))
          ws.length ws 0 st.lastEnd,
      buffer := [], lastEnd := 0 }

/-- Start and end seconds extracted from a timing line: split on the arrow,
trim each side, parse each side. -/
def parseTimes (l : String) : ℚ × ℚ :=
  let parts := arrowSplit l.data
  (timeStringToSeconds (trimS ⟨parts.getD 0 []⟩),
   timeStringToSeconds (trimS ⟨parts.getD 1 []⟩))

/-- The four line classes of the compiler loop. -/
inductive LineClass
  | index | timing | content | blank
deriving DecidableEq, Repr

/-- Line classification in source order: all-digit index line, then timing
line, then nonblank content line, else blank. -/
def classify (l : String) : LineClass :=
  if isIndexLine l then .index
  else if hasArrowS l then .timing
  else if !isBlankLine l then .content
  else .blank

/-- One iteration of the line loop of convertSrtToAss from src/index.js. -/
def stepLine (st : SubState) (l : String) : SubState :=
  match classify l with
  | .index => st
  | .timing =>
    let st2 := processBlock st
    { st2 with startT := (parseTimes l).1, endT := (parseTimes l).2 }
  | .content => { st with buffer := st.buffer ++ trimL l.data ++ [' '] }
  | .blank => processBlock st

/-- convertSrtToAss from src/index.js, reduced to the dialogue events it
emits: fold the line loop, then flush the final block. The fixed style
header and the textual serialization are constant framing around these
events. -/
def convertSrtToAss (lines : List String) : List DialogueEvent :=
  (processBlock (lines.foldl stepLine initState)).events

/-- Compiler state without the running last emitted end: used to state that
each flush depends only on its own window and buffer. -/
structure PureState where
  startT : ℚ
  endT : ℚ
  buffer : List Char
  events : List DialogueEvent
deriving DecidableEq, Repr

/-- Flush in the pure restatement: events computed by flushEvents, which
starts its clamping state at zero. -/
def flushPure (st : PureState) : PureState :=
  if st.buffer.isEmpty then st
  else
    { st with
      events := st.events ++ flushEvents st.startT st.endT st.buffer,
      buffer := [] }

/-- One line step of the pure restatement. -/
def stepPure (st : PureState) (l : String) : PureState :=
  match classify l with
  | .index => st
  | .timing =>
    let st2 := flushPure st
    { st2 with startT := (parseTimes l).1, endT := (parseTimes l).2 }
  | .content => { st with buffer := st.buffer ++ trimL l.data ++ [' '] }
  | .blank => flushPure st

/-- The compiler in the pure restatement. -/
def convertPure (lines : List String) : List DialogueEvent :=
  (flushPure (lines.foldl stepPure ⟨0, 0, [], []⟩)).events

/-- Flush with explicit guards: the per-word division is performed only with
a nonzero word count, otherwise the computation is rejected. -/
def processBlockChecked (st : SubState) : Option SubState :=
  if st.buffer.isEmpty then some st
  else
    let ws := wordsOf st.buffer
    if ws.length = 0 then none
    else some { st with
      events := st.events ++
        chunkLoop st.startT st.endT ((st.endT - st.startT) / (ws.length : ℚ))
          ws.length ws 0 st.lastEnd,
      buffer := [], lastEnd := 0 }

/-- One line step with the flush guard made explicit. -/
def stepChecked (st : SubState) (l : String) : Option SubState :=
  match classify l with
  | .index => some st
  | .timing =>
    (processBlockChecked st).bind fun st2 =>
      some { st2 with startT := (parseTimes l).1, endT := (parseTimes l).2 }
  | .content => some { st with buffer := st.buffer ++ trimL l.data ++ [' '] }
  | .blank => processBlockChecked st

/-- The guarded compiler run. -/
def runChecked : SubState → List String → Option SubState
  | st, [] => some st
  | st, l :: ls => (stepChecked st l).bind fun st2 => runChecked st2 ls

/-- The guarded compiler. -/
def convertChecked (lines : List String) : Option (List DialogueEvent) :=
  (runChecked initState lines).bind fun st =>
    (processBlockChecked st).map SubState.events


/-! Helper lemmas about the aligner. -/

theorem contentCount_nil : contentCount [] = 0 := rfl

theorem contentCount_cons_content (l : String) (rest : List String)
    (h : isContentLine l = true) :
    contentCount (l :: rest) = 1 + contentCount rest := by
  simp [contentCount, List.filter_cons, h, Nat.add_comm]

theorem contentCount_cons_other (l : String) (rest : List String)
    (h : isContentLine l = false) :
    contentCount (l :: rest) = contentCount rest := by
  simp [contentCount, List.filter_cons, h]

theorem contentIdx_zero (lines : List String) : contentIdx lines 0 = 0 := rfl

theorem contentIdx_succ_content (l : String) (rest : List String) (k : Nat)
    (h : isContentLine l = true) :
    contentIdx (l :: rest) (k + 1) = 1 + contentIdx rest k := by
  simp only [contentIdx, List.take_succ_cons]
  exact contentCount_cons_content l (rest.take k) h

theorem contentIdx_succ_other (l : String) (rest : List String) (k : Nat)
    (h : isContentLine l = false) :
    contentIdx (l :: rest) (k + 1) = contentIdx rest k := by
  simp only [contentIdx, List.take_succ_cons]
  exact contentCount_cons_other l (rest.take k) h

theorem alignLines_nil_right (ss : List String) : alignLines ss [] = [] := rfl

theorem alignLines_cons (ss : List String) (l : String) (rest : List String) :
    alignLines ss (l :: rest) =
      if hasArrowS l then l :: alignLines ss rest
      else if contentCond l then
        match ss with
        | s :: ss2 => trimS s :: alignLines ss2 rest
        | [] => alignLines [] rest
      else l :: alignLines ss rest := rfl

theorem alignLines_length (lines : List String) : ∀ ss : List String,
    contentCount lines ≤ ss.length → (alignLines ss lines).length = lines.length := by
  induction lines with
  | nil => intro ss _; simp [alignLines_nil_right]
  | cons l rest ih =>
    intro ss h
    rw [alignLines_cons]
    by_cases hA : hasArrowS l = true
    · have hicl : isContentLine l = false := by simp [isContentLine, hA]
      rw [contentCount_cons_other l rest hicl] at h
      simp only [hA, if_true, List.length_cons]
      rw [ih ss h]
    · have hA' : hasArrowS l = false := by simpa using hA
      by_cases hC : contentCond l = true
      · have hicl : isContentLine l = true := by simp [isContentLine, hA', hC]
        rw [contentCount_cons_content l rest hicl] at h
        cases ss with
        | nil => simp at h
        | cons s ss2 =>
          simp only [hA', hC, Bool.false_eq_true, if_false, if_true, List.length_cons]
          rw [ih ss2 (by simp only [List.length_cons] at h; omega)]
      · have hC' : contentCond l = false := by simpa using hC
        have hicl : isContentLine l = false := by simp [isContentLine, hC']
        rw [contentCount_cons_other l rest hicl] at h
        simp only [hA', hC', Bool.false_eq_true, if_false, List.length_cons]
        rw [ih ss h]

theorem alignLines_getD (lines : List String) : ∀ (ss : List String) (k : Nat),
    contentCount lines ≤ ss.length → k < lines.length →
    (alignLines ss lines).getD k "" =
      if isContentLine (lines.getD k "") = true
      then trimS (ss.getD (contentIdx lines k) "")
      else lines.getD k "" := by
  induction lines with
  | nil => intro ss k _ hk; simp at hk
  | cons l rest ih =>
    intro ss k h hk
    rw [alignLines_cons]
    by_cases hA : hasArrowS l = true
    · have hicl : isContentLine l = false := by simp [isContentLine, hA]
      rw [contentCount_cons_other l rest hicl] at h
      simp only [hA, if_true]
      cases k with
      | zero => simp [hicl]
      | succ k =>
        simp only [List.getD_cons_succ]
        rw [ih ss k h (by simpa using hk), contentIdx_succ_other l rest k hicl]
    · have hA' : hasArrowS l = false := by simpa using hA
      by_cases hC : contentCond l = true
      · have hicl : isContentLine l = true := by simp [isContentLine, hA', hC]
        rw [contentCount_cons_content l rest hicl] at h
        cases ss with
        | nil => simp at h
        | cons s ss2 =>
          simp only [hA', hC, Bool.false_eq_true, if_false, if_true]
          cases k with
          | zero => simp [hicl, contentIdx_zero]
          | succ k =>
            simp only [List.getD_cons_succ]
            rw [ih ss2 k (by simp only [List.length_cons] at h; omega) (by simpa using hk),
              contentIdx_succ_content l rest k hicl]
            rw [Nat.add_comm 1 (contentIdx rest k), List.getD_cons_succ]
      · have hC' : contentCond l = false := by simpa using hC
        have hicl : isContentLine l = false := by simp [isContentLine, hC']
        rw [contentCount_cons_other l rest hicl] at h
        simp only [hA', hC', Bool.false_eq_true, if_false]
        cases k with
        | zero => simp [hicl]
        | succ k =>
          simp only [List.getD_cons_succ]
          rw [ih ss k h (by simpa using hk), contentIdx_succ_other l rest k hicl]

theorem alignLines_nil_left (lines : List String) :
    alignLines [] lines = lines.filter (fun l => !isContentLine l) := by
  induction lines with
  | nil => rfl
  | cons l rest ih =>
    rw [alignLines_cons]
    by_cases hA : hasArrowS l = true
    · have hicl : isContentLine l = false := by simp [isContentLine, hA]
      simp [hA, hicl, List.filter_cons, ih]
    · have hA' : hasArrowS l = false := by simpa using hA
      by_cases hC : contentCond l = true
      · have hicl : isContentLine l = true := by simp [isContentLine, hA', hC]
        simp [hA', hC, hicl, List.filter_cons, ih]
      · have hC' : contentCond l = false := by simpa using hC
        have hicl : isContentLine l = false := by simp [isContentLine, hC']
        simp [hA', hC', hicl, List.filter_cons, ih]

theorem alignLines_append (pre : List String) : ∀ (post ss : List String),
    contentCount pre ≤ ss.length →
    alignLines ss (pre ++ post) =
      alignLines ss pre ++ alignLines (ss.drop (contentCount pre)) post := by
  induction pre with
  | nil => intro post ss _; simp [alignLines_nil_right, contentCount_nil]
  | cons l rest ih =>
    intro post ss h
    rw [List.cons_append, alignLines_cons, alignLines_cons]
    by_cases hA : hasArrowS l = true
    · have hicl : isContentLine l = false := by simp [isContentLine, hA]
      rw [contentCount_cons_other l rest hicl] at h ⊢
      simp only [hA, if_true, List.cons_append]
      rw [ih post ss h]
    · have hA' : hasArrowS l = false := by simpa using hA
      by_cases hC : contentCond l = true
      · have hicl : isContentLine l = true := by simp [isContentLine, hA', hC]
        rw [contentCount_cons_content l rest hicl] at h ⊢
        cases ss with
        | nil => simp at h
        | cons s ss2 =>
          simp only [hA', hC, Bool.false_eq_true, if_false, if_true, List.cons_append]
          rw [ih post ss2 (by simp only [List.length_cons] at h; omega)]
          rw [Nat.add_comm 1 (contentCount rest), List.drop_succ_cons]
      · have hC' : contentCond l = false := by simpa using hC
        have hicl : isContentLine l = false := by simp [isContentLine, hC']
        rw [contentCount_cons_other l rest hicl] at h ⊢
        simp only [hA', hC', Bool.false_eq_true, if_false, List.cons_append]
        rw [ih post ss h]

/-- C2: with at least as many reference sentences as content lines, the
aligned output has the same line count, each content line is replaced by the
next reference sentence in order (trimmed of surrounding whitespace), and
every other line, in particular every timing line, is byte-identical to the
corresponding input line. -/
theorem alignEnough_replaces (script : String) (lines : List String)
    (h : contentCount lines ≤ (sentencesOf script).length) :
    (alignLines (sentencesOf script) lines).length = lines.length ∧
    ∀ k : Nat, k < lines.length →
      (alignLines (sentencesOf script) lines).getD k "" =
        if isContentLine (lines.getD k "") = true
        then trimS ((sentencesOf script).getD (contentIdx lines k) "")
        else lines.getD k "" :=
  ⟨alignLines_length lines _ h, fun k hk => alignLines_getD lines _ k h hk⟩

/-- Witness for the C2 theorem at a concrete transcript and script. -/
theorem alignEnough_replaces_witness :
    contentCount ["1", "00:00:00,000 --> 00:00:01,000", "hello world", "",
        "2", "00:00:01,500 --> 00:00:02,000", "goodbye", ""] ≤
      (sentencesOf "First part. Second part. Third").length ∧
    (alignLines (sentencesOf "First part. Second part. Third")
        ["1", "00:00:00,000 --> 00:00:01,000", "hello world", "",
         "2", "00:00:01,500 --> 00:00:02,000", "goodbye", ""]).getD 2 "" =
      "First part" := by
  refine ⟨by decide, ?_⟩
  have h := (alignEnough_replaces "First part. Second part. Third"
    ["1", "00:00:00,000 --> 00:00:01,000", "hello world", "",
     "2", "00:00:01,500 --> 00:00:02,000", "goodbye", ""] (by decide)).2 2 (by decide)
  exact h.trans (by decide)

/-- C1 counterexample: with one reference sentence and two content lines, the
claimed retention fails: the second content line is removed from the output
altogether, so the output is one line shorter and no longer contains the
original text. -/
theorem alignExhausted_retains_cex :
    alignLines (sentencesOf "Bonjour")
        ["1", "00:00:00,000 --> 00:00:01,000", "hello", "",
         "2", "00:00:01,000 --> 00:00:02,000", "world", ""] =
      ["1", "00:00:00,000 --> 00:00:01,000", "Bonjour", "",
       "2", "00:00:01,000 --> 00:00:02,000", ""] ∧
    ("world" ∉ alignLines (sentencesOf "Bonjour")
        ["1", "00:00:00,000 --> 00:00:01,000", "hello", "",
         "2", "00:00:01,000 --> 00:00:02,000", "world", ""]) ∧
    (alignLines (sentencesOf "Bonjour")
        ["1", "00:00:00,000 --> 00:00:01,000", "hello", "",
         "2", "00:00:01,000 --> 00:00:02,000", "world", ""]).length ≠ 8 := by
  decide

/-- C1 (amended): with the reference sentences exhausted exactly after the
prefix, the first M content lines are replaced by the M sentences (trimmed)
and every later content line is removed from the output rather than
retained; all later non-content lines pass through unchanged. -/
theorem alignExhausted_drops (ss pre post : List String)
    (h : contentCount pre = ss.length) :
    alignLines ss (pre ++ post) =
      alignLines ss pre ++ post.filter (fun l => !isContentLine l) ∧
    (alignLines ss pre).length = pre.length ∧
    ∀ k : Nat, k < pre.length →
      (alignLines ss pre).getD k "" =
        if isContentLine (pre.getD k "") = true
        then trimS (ss.getD (contentIdx pre k) "")
        else pre.getD k "" := by
  refine ⟨?_, alignLines_length pre ss (le_of_eq h),
    fun k hk => alignLines_getD pre ss k (le_of_eq h) hk⟩
  rw [alignLines_append pre post ss (le_of_eq h), h, List.drop_length, alignLines_nil_left]

/-- Witness for the amended C1 theorem at a concrete transcript and script. -/
theorem alignExhausted_drops_witness :
    contentCount ["1", "00:00:00,000 --> 00:00:01,000", "hello", ""] =
      (sentencesOf "Bonjour").length ∧
    alignLines (sentencesOf "Bonjour")
        (["1", "00:00:00,000 --> 00:00:01,000", "hello", ""] ++
          ["2", "00:00:01,000 --> 00:00:02,000", "world", ""]) =
      alignLines (sentencesOf "Bonjour")
          ["1", "00:00:00,000 --> 00:00:01,000", "hello", ""] ++
        (["2", "00:00:01,000 --> 00:00:02,000", "world", ""].filter
          (fun l => !isContentLine l)) := by
  refine ⟨by decide, ?_⟩
  exact (alignExhausted_drops (sentencesOf "Bonjour")
    ["1", "00:00:00,000 --> 00:00:01,000", "hello", ""]
    ["2", "00:00:01,000 --> 00:00:02,000", "world", ""] (by decide)).1

/-! Helper lemmas about the chunk loop. -/

theorem chunkEv_startT_ge (s e tpw : ℚ) (n i : Nat) (le : ℚ) (chunk : List (List Char)) :
    le ≤ (chunkEv s e tpw n i le chunk).startT := by
  simp only [chunkEv]
  split
  · exact le_refl le
  · next hlt => exact le_of_not_lt hlt

theorem chunkEv_endT_le (s e tpw : ℚ) (n i : Nat) (le : ℚ) (chunk : List (List Char)) :
    (chunkEv s e tpw n i le chunk).endT ≤ e := by
  simp only [chunkEv]
  split
  · exact le_refl e
  · next hlt => exact le_of_not_lt hlt

theorem chunkLoop_length (s e tpw : ℚ) (n : Nat) :
    ∀ (rem : List (List Char)) (i : Nat) (le : ℚ),
      (chunkLoop s e tpw n rem i le).length = (rem.length + 3) / 4 := by
  suffices H : ∀ (L : Nat) (rem : List (List Char)), rem.length ≤ L →
      ∀ (i : Nat) (le : ℚ), (chunkLoop s e tpw n rem i le).length = (rem.length + 3) / 4 by
    exact fun rem i le => H rem.length rem le_rfl i le
  intro L
  induction L with
  | zero =>
    intro rem hr i le
    have hnil : rem = [] := List.eq_nil_of_length_eq_zero (Nat.le_zero.mp hr)
    subst hnil
    simp [chunkLoop]
  | succ L IH =>
    intro rem hr i le
    rcases rem with _ | ⟨a, _ | ⟨b, _ | ⟨c, _ | ⟨d, rest⟩⟩⟩⟩
    · simp [chunkLoop]
    · simp [chunkLoop]
    · simp [chunkLoop]
    · simp [chunkLoop]
    · simp only [chunkLoop, List.length_cons]
      rw [IH rest (by simp only [List.length_cons] at hr; omega) (i + 4) _]
      have h4 : rest.length + 1 + 1 + 1 + 1 + 3 = rest.length + 3 + 4 := by omega
      rw [h4, Nat.add_div_right _ (by norm_num)]

theorem chunkLoop_getD_text (s e tpw : ℚ) (n : Nat) :
    ∀ (rem : List (List Char)) (i : Nat) (le : ℚ) (k : Nat),
      k < (chunkLoop s e tpw n rem i le).length →
      ((chunkLoop s e tpw n rem i le).getD k default).text =
        ⟨joinSpace ((rem.drop (4 * k)).take 4)⟩ := by
  suffices H : ∀ (L : Nat) (rem : List (List Char)), rem.length ≤ L →
      ∀ (i : Nat) (le : ℚ) (k : Nat), k < (chunkLoop s e tpw n rem i le).length →
      ((chunkLoop s e tpw n rem i le).getD k default).text =
        ⟨joinSpace ((rem.drop (4 * k)).take 4)⟩ by
    exact fun rem i le k hk => H rem.length rem le_rfl i le k hk
  intro L
  induction L with
  | zero =>
    intro rem hr i le k hk
    have hnil : rem = [] := List.eq_nil_of_length_eq_zero (Nat.le_zero.mp hr)
    subst hnil
    simp [chunkLoop] at hk
  | succ L IH =>
    intro rem hr i le k hk
    rcases rem with _ | ⟨a, _ | ⟨b, _ | ⟨c, _ | ⟨d, rest⟩⟩⟩⟩
    · simp [chunkLoop] at hk
    · simp only [chunkLoop, List.length_cons, List.length_nil] at hk
      interval_cases k
      simp [chunkEv, chunkLoop]
    · simp only [chunkLoop, List.length_cons, List.length_nil] at hk
      interval_cases k
      simp [chunkEv, chunkLoop]
    · simp only [chunkLoop, List.length_cons, List.length_nil] at hk
      interval_cases k
      simp [chunkEv, chunkLoop]
    · cases k with
      | zero => simp [chunkLoop, chunkEv]
      | succ k =>
        simp only [chunkLoop, List.length_cons] at hk
        simp only [chunkLoop, List.getD_cons_succ]
        rw [IH rest (by simp only [List.length_cons] at hr; omega) (i + 4) _ k
          (by omega)]
        have h4 : 4 * (k + 1) = 4 * k + 1 + 1 + 1 + 1 := by omega
        rw [h4]
        simp [List.drop_succ_cons]

theorem chunkLoop_chain (s e tpw : ℚ) (n : Nat) :
    ∀ (rem : List (List Char)) (i : Nat) (le : ℚ),
      List.Chain' (fun a b : DialogueEvent => a.endT ≤ b.startT)
        (chunkLoop s e tpw n rem i le) ∧
      (∀ ev ∈ chunkLoop s e tpw n rem i le, ev.endT ≤ e) ∧
      (∀ ev ∈ (chunkLoop s e tpw n rem i le).head?, le ≤ ev.startT) := by
  suffices H : ∀ (L : Nat) (rem : List (List Char)), rem.length ≤ L →
      ∀ (i : Nat) (le : ℚ),
      List.Chain' (fun a b : DialogueEvent => a.endT ≤ b.startT)
        (chunkLoop s e tpw n rem i le) ∧
      (∀ ev ∈ chunkLoop s e tpw n rem i le, ev.endT ≤ e) ∧
      (∀ ev ∈ (chunkLoop s e tpw n rem i le).head?, le ≤ ev.startT) by
    exact fun rem i le => H rem.length rem le_rfl i le
  intro L
  induction L with
  | zero =>
    intro rem hr i le
    have hnil : rem = [] := List.eq_nil_of_length_eq_zero (Nat.le_zero.mp hr)
    subst hnil
    simp [chunkLoop]
  | succ L IH =>
    intro rem hr i le
    rcases rem with _ | ⟨a, _ | ⟨b, _ | ⟨c, _ | ⟨d, rest⟩⟩⟩⟩
    · simp [chunkLoop]
    · refine ⟨List.chain'_singleton _, ?_, ?_⟩
      · intro ev hev
        simp only [chunkLoop, List.mem_singleton] at hev
        subst hev
        exact chunkEv_endT_le s e tpw n i le _
      · intro ev hev
        simp only [chunkLoop, List.head?_cons, Option.mem_def, Option.some.injEq] at hev
        subst hev
        exact chunkEv_startT_ge s e tpw n i le _
    · refine ⟨List.chain'_singleton _, ?_, ?_⟩
      · intro ev hev
        simp only [chunkLoop, List.mem_singleton] at hev
        subst hev
        exact chunkEv_endT_le s e tpw n i le _
      · intro ev hev
        simp only [chunkLoop, List.head?_cons, Option.mem_def, Option.some.injEq] at hev
        subst hev
        exact chunkEv_startT_ge s e tpw n i le _
    · refine ⟨List.chain'_singleton _, ?_, ?_⟩
      · intro ev hev
        simp only [chunkLoop, List.mem_singleton] at hev
        subst hev
        exact chunkEv_endT_le s e tpw n i le _
      · intro ev hev
        simp only [chunkLoop, List.head?_cons, Option.mem_def, Option.some.injEq] at hev
        subst hev
        exact chunkEv_startT_ge s e tpw n i le _
    · have hr' : rest.length ≤ L := by simp only [List.length_cons] at hr; omega
      obtain ⟨hch, hle, hhd⟩ :=
        IH rest hr' (i + 4) (chunkEv s e tpw n i le [a, b, c, d]).endT
      simp only [chunkLoop]
      refine ⟨List.chain'_cons'.mpr ⟨fun b hb => hhd b hb, hch⟩, ?_, ?_⟩
      · intro ev hev
        rcases List.mem_cons.mp hev with h1 | h2
        · subst h1
          exact chunkEv_endT_le s e tpw n i le _
        · exact hle ev h2
      · intro ev hev
        simp only [List.head?_cons, Option.mem_def, Option.some.injEq] at hev
        subst hev
        exact chunkEv_startT_ge s e tpw n i le _

/-- C3: within one flushed block whose window satisfies start at most end,
consecutive emitted events never overlap (each event ends no later than the
next one starts) and every emitted event ends no later than the window
end. -/
theorem flush_intra_block_monotone (s e : ℚ) (buf : List Char) (h : s ≤ e) :
    List.Chain' (fun a b : DialogueEvent => a.endT ≤ b.startT) (flushEvents s e buf) ∧
    ∀ ev ∈ flushEvents s e buf, ev.endT ≤ e := by
  unfold flushEvents
  split
  · simp
  · exact ⟨(chunkLoop_chain s e _ _ _ 0 0).1, (chunkLoop_chain s e _ _ _ 0 0).2.1⟩

/-- Witness for the C3 theorem at a concrete window and buffer. -/
theorem flush_intra_block_monotone_witness :
    (0 : ℚ) ≤ 8 ∧
    List.Chain' (fun a b : DialogueEvent => a.endT ≤ b.startT)
      (flushEvents 0 8 "one two three four five".data) := by
  refine ⟨by norm_num, ?_⟩
  exact (flush_intra_block_monotone 0 8 "one two three four five".data (by norm_num)).1

/-- C4: a flushed block with at least one word and chunk size four emits
exactly the rounded-up quotient of the word count by four as its number of
events, and the k-th event carries exactly the words at positions 4k up to
4k+4 (capped at the word count) of the accumulated text, joined by
spaces. -/
theorem flush_chunk_partition (s e : ℚ) (buf : List Char) (h : buf ≠ [])
    (hw : 1 ≤ (wordsOf buf).length) :
    (flushEvents s e buf).length = ((wordsOf buf).length + 3) / 4 ∧
    ∀ k : Nat, k < (flushEvents s e buf).length →
      ((flushEvents s e buf).getD k default).text =
        ⟨joinSpace (((wordsOf buf).drop (4 * k)).take 4)⟩ := by
  unfold flushEvents
  rw [if_neg (by simpa [List.isEmpty_iff] using h)]
  exact ⟨chunkLoop_length s e _ _ _ 0 0,
    fun k hk => chunkLoop_getD_text s e _ _ _ 0 0 k hk⟩

/-- Witness for the C4 theorem: five words yield two events, the second
carrying the fifth word. -/
theorem flush_chunk_partition_witness :
    "a b c d e".data ≠ [] ∧ 1 ≤ (wordsOf "a b c d e".data).length ∧
    (flushEvents 0 8 "a b c d e".data).length = 2 ∧
    ((flushEvents 0 8 "a b c d e".data).getD 1 default).text = "e" := by
  refine ⟨by decide, by decide, ?_, ?_⟩
  · exact (flush_chunk_partition 0 8 "a b c d e".data (by decide) (by decide)).1.trans
      (by decide)
  · exact ((flush_chunk_partition 0 8 "a b c d e".data (by decide) (by decide)).2 1
      (by decide)).trans (by decide)

/-! Helper lemmas about the compiler state machine. -/

theorem splitSpace_ne_nil (cs : List Char) : splitSpace cs ≠ [] := by
  induction cs with
  | nil => simp [splitSpace]
  | cons c rest ih =>
    simp only [splitSpace]
    split
    · simp
    · split
      · simp
      · simp

theorem wordsOf_length_ne_zero (buf : List Char) : (wordsOf buf).length ≠ 0 := by
  simp only [ne_eq, List.length_eq_zero]
  exact splitSpace_ne_nil (trimL buf)

/-- Forget the last emitted end component of the compiler state. -/
def toPure (st : SubState) : PureState := ⟨st.startT, st.endT, st.buffer, st.events⟩

theorem processBlock_lastEnd (st : SubState) (h : st.lastEnd = 0) :
    (processBlock st).lastEnd = 0 := by
  unfold processBlock
  split
  · exact h
  · rfl

theorem stepLine_lastEnd (st : SubState) (l : String) (h : st.lastEnd = 0) :
    (stepLine st l).lastEnd = 0 := by
  unfold stepLine
  split
  · exact h
  · exact processBlock_lastEnd st h
  · exact h
  · exact processBlock_lastEnd st h

theorem foldl_stepLine_lastEnd (lines : List String) :
    (lines.foldl stepLine initState).lastEnd = 0 := by
  suffices H : ∀ st : SubState, st.lastEnd = 0 → (lines.foldl stepLine st).lastEnd = 0 from
    H initState rfl
  induction lines with
  | nil => intro st h; exact h
  | cons l ls ih => intro st h; exact ih (stepLine st l) (stepLine_lastEnd st l h)

theorem processBlock_toPure (st : SubState) (h : st.lastEnd = 0) :
    toPure (processBlock st) = flushPure (toPure st) := by
  unfold processBlock flushPure flushEvents toPure
  cases hb : st.buffer.isEmpty
  · simp [hb, h]
  · simp [hb]

theorem stepLine_toPure (st : SubState) (l : String) (h : st.lastEnd = 0) :
    toPure (stepLine st l) = stepPure (toPure st) l := by
  have hp := processBlock_toPure st h
  unfold stepLine stepPure
  cases hc : classify l
  · rfl
  · simp only [toPure, PureState.mk.injEq, true_and]
    exact ⟨congrArg PureState.buffer hp, congrArg PureState.events hp⟩
  · rfl
  · exact hp

theorem foldl_toPure (lines : List String) : ∀ st : SubState, st.lastEnd = 0 →
    toPure (lines.foldl stepLine st) = lines.foldl stepPure (toPure st) := by
  induction lines with
  | nil => intro st _; rfl
  | cons l ls ih =>
    intro st h
    simp only [List.foldl_cons]
    rw [ih (stepLine st l) (stepLine_lastEnd st l h), stepLine_toPure st l h]

theorem convert_eq_convertPure (lines : List String) :
    convertSrtToAss lines = convertPure lines := by
  unfold convertSrtToAss convertPure
  have h1 := foldl_toPure lines initState rfl
  have h2 := processBlock_toPure (lines.foldl stepLine initState) (foldl_stepLine_lastEnd lines)
  calc (processBlock (lines.foldl stepLine initState)).events
      = (toPure (processBlock (lines.foldl stepLine initState))).events := rfl
    _ = (flushPure (toPure (lines.foldl stepLine initState))).events := by rw [h2]
    _ = (flushPure (lines.foldl stepPure (toPure initState))).events := by rw [h1]
    _ = (flushPure (lines.foldl stepPure ⟨0, 0, [], []⟩)).events := rfl

theorem processBlock_of_empty (st : SubState) (h : st.buffer = []) :
    processBlock st = st := by
  unfold processBlock
  rw [h]
  simp

theorem processBlock_buffer (st : SubState) : (processBlock st).buffer = [] := by
  unfold processBlock
  split
  · next hb => simpa [List.isEmpty_iff] using hb
  · rfl

theorem processBlock_idem (st : SubState) :
    processBlock (processBlock st) = processBlock st :=
  processBlock_of_empty _ (processBlock_buffer st)

theorem convert_append_blank (lines : List String) :
    convertSrtToAss (lines ++ [""]) = convertSrtToAss lines := by
  unfold convertSrtToAss
  rw [List.foldl_append]
  simp only [List.foldl_cons, List.foldl_nil]
  have hstep : stepLine (lines.foldl stepLine initState) "" =
      processBlock (lines.foldl stepLine initState) := by
    unfold stepLine
    rw [show classify "" = LineClass.blank from by decide]
  rw [hstep, processBlock_idem]

theorem processBlockChecked_eq (st : SubState) :
    processBlockChecked st = some (processBlock st) := by
  unfold processBlockChecked processBlock
  split
  · rfl
  · rw [if_neg (wordsOf_length_ne_zero st.buffer)]

theorem stepChecked_eq (st : SubState) (l : String) :
    stepChecked st l = some (stepLine st l) := by
  unfold stepChecked stepLine
  cases hc : classify l
  · rfl
  · rw [processBlockChecked_eq]
    rfl
  · rfl
  · exact processBlockChecked_eq st

theorem runChecked_eq (lines : List String) : ∀ st : SubState,
    runChecked st lines = some (lines.foldl stepLine st) := by
  induction lines with
  | nil => intro st; rfl
  | cons l ls ih =>
    intro st
    simp only [runChecked, stepChecked_eq, Option.some_bind, List.foldl_cons]
    exact ih (stepLine st l)

theorem convertChecked_eq (lines : List String) :
    convertChecked lines = some (convertSrtToAss lines) := by
  unfold convertChecked convertSrtToAss
  rw [runChecked_eq]
  simp [processBlockChecked_eq]

/-- C7: the running last emitted end is zero after processing any prefix of
lines, so every flush starts with a fresh clamping state and the whole run
equals the restatement in which each flush depends only on its own window
and buffer; across windows overlap is possible, as the concrete run shows:
the second window's event starts at five while the first window's event ends
at ten. -/
theorem flush_fresh_lastEnd :
    (∀ lines : List String, (lines.foldl stepLine initState).lastEnd = 0) ∧
    (∀ lines : List String, convertSrtToAss lines = convertPure lines) ∧
    convertSrtToAss ["00:00:00,000 --> 00:00:10,000", "word", "",
        "00:00:05,000 --> 00:00:06,000", "other"] =
      [⟨0, 10, "word"⟩, ⟨5, 6, "other"⟩] ∧
    (5 : ℚ) < 10 := by
  refine ⟨foldl_stepLine_lastEnd, convert_eq_convertPure, ?_, by norm_num⟩
  simp +decide [convertSrtToAss, stepLine, classify, initState, processBlock, parseTimes,
    arrowSplit, timeStringToSeconds, scanTime, matchAt, digitsVal, srtTimeValue, wordsOf,
    splitSpace, trimL, isWsChar, trimS, isIndexLine, isBlankLine, hasArrowS, hasArrow,
    chunkLoop, chunkEv, joinSpace]

/-- C9: a document ending on a content line is compiled exactly as if a
terminating blank line were present, so the trailing accumulated block is
flushed under the last seen timing window and never dropped; concretely a
final unterminated block emits its event under the last window. -/
theorem final_block_flushed :
    (∀ lines : List String, convertSrtToAss (lines ++ [""]) = convertSrtToAss lines) ∧
    convertSrtToAss ["00:00:01,000 --> 00:00:03,000", "hello"] = [⟨1, 3, "hello"⟩] := by
  refine ⟨convert_append_blank, ?_⟩
  simp +decide [convertSrtToAss, stepLine, classify, initState, processBlock, parseTimes,
    arrowSplit, timeStringToSeconds, scanTime, matchAt, digitsVal, srtTimeValue, wordsOf,
    splitSpace, trimL, isWsChar, trimS, isIndexLine, isBlankLine, hasArrowS, hasArrow,
    chunkLoop, chunkEv, joinSpace]

/-- C10: the compiler is total: the guarded run, which rejects any flush
whose word count would make the per-word division degenerate, succeeds on
every input and returns the unguarded result; every line belongs to one of
the four handled classes; the empty document and a zero-duration window are
handled without error. -/
theorem compiler_total :
    (∀ lines : List String, convertChecked lines = some (convertSrtToAss lines)) ∧
    (∀ l : String, classify l = LineClass.index ∨ classify l = LineClass.timing ∨
      classify l = LineClass.content ∨ classify l = LineClass.blank) ∧
    convertSrtToAss [] = [] ∧
    convertSrtToAss ["00:00:01,000 --> 00:00:01,000", "a b c d e"] =
      [⟨1, 1, "a b c d"⟩, ⟨1, 1, "e"⟩] := by
  refine ⟨convertChecked_eq, ?_, rfl, ?_⟩
  · intro l
    cases hc : classify l
    · exact Or.inl rfl
    · exact Or.inr (Or.inl rfl)
    · exact Or.inr (Or.inr (Or.inl rfl))
    · exact Or.inr (Or.inr (Or.inr rfl))
  · simp +decide [convertSrtToAss, stepLine, classify, initState, processBlock, parseTimes,
      arrowSplit, timeStringToSeconds, scanTime, matchAt, digitsVal, srtTimeValue, wordsOf,
      splitSpace, trimL, isWsChar, trimS, isIndexLine, isBlankLine, hasArrowS, hasArrow,
      chunkLoop, chunkEv, joinSpace]

/-! Helper lemmas about the timing scanner. -/

theorem matchAt_nil : matchAt [] = none := rfl

theorem scanTime_cons (c : Char) (rest : List Char) :
    scanTime (c :: rest) =
      match matchAt (c :: rest) with
      | some r => some r
      | none => scanTime rest := rfl

theorem scanTime_eq_none (cs : List Char)
    (h : ∀ i : Nat, matchAt (cs.drop i) = none) : scanTime cs = none := by
  induction cs with
  | nil => rfl
  | cons c rest ih =>
    have h0 : matchAt (c :: rest) = none := h 0
    rw [scanTime_cons, h0]
    exact ih (fun i => h (i + 1))

theorem scanTime_eq_some (cs : List Char) :
    ∀ (i : Nat) (r : Nat × Nat × Nat × Nat),
    matchAt (cs.drop i) = some r → (∀ j : Nat, j < i → matchAt (cs.drop j) = none) →
    scanTime cs = some r := by
  induction cs with
  | nil =>
    intro i r hm _
    rw [List.drop_nil] at hm
    rw [matchAt_nil] at hm
    exact absurd hm (by simp)
  | cons c rest ih =>
    intro i r hm hn
    cases i with
    | zero =>
      have hm0 : matchAt (c :: rest) = some r := hm
      rw [scanTime_cons, hm0]
    | succ i =>
      have h0 : matchAt (c :: rest) = none := hn 0 (Nat.succ_pos i)
      rw [scanTime_cons, h0]
      exact ih i r hm (fun j hj => hn (j + 1) (by omega))

/-- C5: the timing parse never fails: a line with no occurrence of the
digits-colon-digits-colon-digits-comma-digits pattern (for example
"not-a-time") parses to zero seconds, and a line whose leftmost occurrence
of the pattern carries the four fields parses to
h*3600 + m*60 + s + ms/1000 seconds. -/
theorem timeStringToSeconds_leniency :
    timeStringToSeconds "not-a-time" = 0 ∧
    (∀ l : String, (∀ i : Nat, matchAt (l.data.drop i) = none) →
      timeStringToSeconds l = 0) ∧
    (∀ (l : String) (i h m s ms : Nat),
      matchAt (l.data.drop i) = some (h, m, s, ms) →
      (∀ j : Nat, j < i → matchAt (l.data.drop j) = none) →
      timeStringToSeconds l = srtTimeValue h m s ms) := by
  refine ⟨by decide, ?_, ?_⟩
  · intro l hl
    unfold timeStringToSeconds
    rw [scanTime_eq_none l.data hl]
  · intro l i h m s ms hm hn
    unfold timeStringToSeconds
    rw [scanTime_eq_some l.data i (h, m, s, ms) hm hn]

/-- Witness for the C5 theorem: the timestamp at position zero of a concrete
timing string is parsed to its field value. -/
theorem timeStringToSeconds_leniency_witness :
    matchAt ("00:00:01,500".data.drop 0) = some (0, 0, 1, 500) ∧
    timeStringToSeconds "00:00:01,500" = srtTimeValue 0 0 1 500 := by
  refine ⟨by decide, ?_⟩
  exact timeStringToSeconds_leniency.2.2 "00:00:01,500" 0 0 0 1 500 (by decide)
    (fun j hj => absurd hj (by omega))

/-! Helper lemmas about the formatter arithmetic. -/

theorem jsMod_nonneg (a b : ℚ) (ha : 0 ≤ a) (hb : 0 < b) : 0 ≤ jsMod a b := by
  unfold jsMod
  have h1 : (⌊a / b⌋ : ℚ) ≤ a / b := Int.floor_le (a / b)
  have h2 : b * (a / b) = a := by field_simp
  nlinarith

theorem jsMod_lt (a b : ℚ) (hb : 0 < b) : jsMod a b < b := by
  unfold jsMod
  have h1 : a / b < (⌊a / b⌋ : ℚ) + 1 := Int.lt_floor_add_one (a / b)
  have h2 : b * (a / b) = a := by field_simp
  nlinarith

theorem assTimeValue_approx (q : ℚ) (h : 0 ≤ q) : |assTimeValue q - q| ≤ 1 / 200 := by
  unfold assTimeValue assHours assMinutes assCentis
  have hH0 : (0 : ℤ) ≤ ⌊q / 3600⌋ := Int.floor_nonneg.mpr (by positivity)
  have hM0 : (0 : ℤ) ≤ ⌊jsMod q 3600 / 60⌋ :=
    Int.floor_nonneg.mpr (div_nonneg (jsMod_nonneg q 3600 h (by norm_num)) (by norm_num))
  have hr0 : 0 ≤ jsMod q 60 := jsMod_nonneg q 60 h (by norm_num)
  have hC0 : (0 : ℤ) ≤ round (jsMod q 60 * 100) := by
    rw [round_eq]
    exact Int.floor_nonneg.mpr (by linarith)
  have hM' : ⌊jsMod q 3600 / 60⌋ = ⌊q / 60⌋ - 60 * ⌊q / 3600⌋ := by
    have heq : jsMod q 3600 / 60 = q / 60 - ((60 * ⌊q / 3600⌋ : ℤ) : ℚ) := by
      unfold jsMod
      push_cast
      ring
    rw [heq, Int.floor_sub_int]
  have key := abs_sub_round (jsMod q 60 * 100)
  have e1 : ((⌊q / 3600⌋.toNat : ℚ)) = ((⌊q / 3600⌋ : ℤ) : ℚ) := by
    exact_mod_cast Int.toNat_of_nonneg hH0
  have e2 : ((⌊jsMod q 3600 / 60⌋.toNat : ℚ)) = ((⌊jsMod q 3600 / 60⌋ : ℤ) : ℚ) := by
    exact_mod_cast Int.toNat_of_nonneg hM0
  have e3 : (((round (jsMod q 60 * 100)).toNat : ℚ)) =
      ((round (jsMod q 60 * 100) : ℤ) : ℚ) := by
    exact_mod_cast Int.toNat_of_nonneg hC0
  rw [e1, e2, e3, hM']
  push_cast
  have hrw : 3600 * ((⌊q / 3600⌋ : ℤ) : ℚ) +
      60 * (((⌊q / 60⌋ : ℤ) : ℚ) - 60 * ((⌊q / 3600⌋ : ℤ) : ℚ)) +
      ((round (jsMod q 60 * 100) : ℤ) : ℚ) / 100 - q =
      (((round (jsMod q 60 * 100) : ℤ) : ℚ) - jsMod q 60 * 100) / 100 := by
    unfold jsMod
    ring
  rw [hrw, abs_div]
  rw [abs_of_pos (show (0:ℚ) < 100 by norm_num)]
  have key2 : |((round (jsMod q 60 * 100) : ℤ) : ℚ) - jsMod q 60 * 100| ≤ 1 / 2 := by
    rw [abs_sub_comm]
    exact key
  linarith

/-- C6 counterexample: the claimed round-trip fails beyond floating-point
tolerance: four milliseconds parse to 1/250 of a second, re-serialize to a
rendered value of zero, an absolute error of 1/250 of a second caused by the
centisecond output resolution. -/
theorem roundtrip_cex :
    timeStringToSeconds "00:00:00,004" = 1 / 250 ∧
    assTimeValue (timeStringToSeconds "00:00:00,004") ≠
      timeStringToSeconds "00:00:00,004" ∧
    |assTimeValue (timeStringToSeconds "00:00:00,004") -
      timeStringToSeconds "00:00:00,004"| = 1 / 250 ∧
    secondsToAssTime (timeStringToSeconds "00:00:00,004") = "0:00:00.00" := by
  have hv : timeStringToSeconds "00:00:00,004" = 1 / 250 := by
    simp +decide [timeStringToSeconds, scanTime, matchAt, digitsVal, srtTimeValue]
    norm_num
  have ha : assTimeValue (1 / 250 : ℚ) = 0 := by
    norm_num [assTimeValue, assHours, assMinutes, assCentis, jsMod, round_eq]
  have h1 : assHours (1 / 250 : ℚ) = 0 := by norm_num [assHours]
  have h2 : assMinutes (1 / 250 : ℚ) = 0 := by norm_num [assMinutes, jsMod]
  have h3 : assCentis (1 / 250 : ℚ) = 0 := by norm_num [assCentis, jsMod, round_eq]
  rw [hv]
  refine ⟨rfl, by rw [ha]; norm_num, by rw [ha]; norm_num, ?_⟩
  unfold secondsToAssTime
  rw [h1, h2, h3]
  decide

/-- C6 (amended): parsing a timestamp with fields h, m, s, ms and
re-serializing the parsed duration with the output formatter preserves the
numeric value within half a centisecond (1/200 of a second, the rounding
resolution of the two-decimal output format), not within floating-point
tolerance. -/
theorem roundtrip_centisecond (h m s ms : Nat) :
    |assTimeValue (srtTimeValue h m s ms) - srtTimeValue h m s ms| ≤ 1 / 200 := by
  apply assTimeValue_approx
  unfold srtTimeValue
  positivity

/-! Helper lemmas about the formatter string shape. -/

theorem padStart_length (s : String) (n : Nat) (c : Char) :
    (padStart s n c).length = max n s.length := by
  show (List.replicate (n - s.length) c ++ s.data).length = max n s.length
  simp only [List.length_append, List.length_replicate]
  have : s.data.length = s.length := rfl
  omega

theorem natRepr_le_two : ∀ k : Nat, k < 100 → (Nat.repr k).length ≤ 2 := by decide

theorem assMinutes_lt (q : ℚ) (h : 0 ≤ q) : assMinutes q < 60 := by
  unfold assMinutes
  have hub : jsMod q 3600 < 3600 := jsMod_lt q 3600 (by norm_num)
  have h2 : ⌊jsMod q 3600 / 60⌋ < 60 := by
    apply Int.floor_lt.mpr
    push_cast
    linarith
  omega

/-- C8: for a nonnegative duration the formatted time is the unpadded
decimal hours, a colon, the minutes zero-padded to exactly two characters,
a colon, and a seconds field of at least five characters consisting of an
integer part, a period and exactly two decimal digits. -/
theorem secondsToAssTime_format (q : ℚ) (h : 0 ≤ q) :
    ∃ mm ss : String,
      secondsToAssTime q = Nat.repr (assHours q) ++ ":" ++ mm ++ ":" ++ ss ∧
      mm = padStart (Nat.repr (assMinutes q)) 2 '0' ∧
      mm.length = 2 ∧
      assMinutes q < 60 ∧
      5 ≤ ss.length ∧
      ∃ ip fp : String, ss = ip ++ "." ++ fp ∧
        fp = padStart (Nat.repr (assCentis q % 100)) 2 '0' ∧ fp.length = 2 := by
  refine ⟨padStart (Nat.repr (assMinutes q)) 2 '0',
    padStart (Nat.repr (assCentis q / 100) ++ "." ++
      padStart (Nat.repr (assCentis q % 100)) 2 '0') 5 '0',
    rfl, rfl, ?_, assMinutes_lt q h, ?_, ?_⟩
  · rw [padStart_length]
    have := natRepr_le_two (assMinutes q) (lt_trans (assMinutes_lt q h) (by norm_num))
    omega
  · rw [padStart_length]
    omega
  · refine ⟨⟨List.replicate (5 - (Nat.repr (assCentis q / 100) ++ "." ++
        padStart (Nat.repr (assCentis q % 100)) 2 '0').length) '0' ++
        (Nat.repr (assCentis q / 100)).data⟩,
      padStart (Nat.repr (assCentis q % 100)) 2 '0', ?_, rfl, ?_⟩
    · apply String.ext
      show List.replicate _ '0' ++ (Nat.repr (assCentis q / 100) ++ "." ++
          padStart (Nat.repr (assCentis q % 100)) 2 '0').data = _
      simp [String.data_append, List.append_assoc]
    · rw [padStart_length]
      have := natRepr_le_two (assCentis q % 100) (Nat.mod_lt _ (by norm_num))
      omega

/-- Witness for the C8 theorem: five and a half seconds render with seconds
field 05.50, minutes 00 and unpadded hours 0. -/
theorem secondsToAssTime_format_witness :
    (0 : ℚ) ≤ 11 / 2 ∧
    (∃ mm ss : String,
      secondsToAssTime (11 / 2) =
        Nat.repr (assHours (11 / 2)) ++ ":" ++ mm ++ ":" ++ ss ∧
      mm = padStart (Nat.repr (assMinutes (11 / 2))) 2 '0' ∧
      mm.length = 2 ∧
      assMinutes (11 / 2) < 60 ∧
      5 ≤ ss.length ∧
      ∃ ip fp : String, ss = ip ++ "." ++ fp ∧
        fp = padStart (Nat.repr (assCentis (11 / 2) % 100)) 2 '0' ∧ fp.length = 2) ∧
    secondsToAssTime (11 / 2) = "0:00:05.50" := by
  have h1 : assHours (11 / 2 : ℚ) = 0 := by norm_num [assHours]
  have h2 : assMinutes (11 / 2 : ℚ) = 0 := by norm_num [assMinutes, jsMod]
  have h3 : assCentis (11 / 2 : ℚ) = 550 := by
    norm_num [assCentis, jsMod, round_eq]
    rfl
  refine ⟨by norm_num, secondsToAssTime_format (11 / 2) (by norm_num), ?_⟩
  unfold secondsToAssTime
  rw [h1, h2, h3]
  decide
